import Mathlib

/-!
Verification of the OS page-replacement visualizer's simulation core.

The JavaScript source has two parallel layers:
* `algorithms.js`, first half: `fifoStep`, `lruStep`, `optimalStep` take the
  whole simulation state and return the updated state;
* `algorithms.js`, second half: `runFifo`, `runLru`, `runOptimal` take the
  individual pieces (frames, pointer/queue, page) and return a result record;
* `simulation.js`, class version: `SimulationController` drives `fifoStep`,
  `lruStep`, `optimalStep` and keeps a snapshot history for undo;
* `simulation.js`, module version: top-level mutable variables driven by
  `stepForward`, calling `runFifo`, `runLru`, `runOptimal`.

Pages are modelled as `Nat`, a frame slot as `Option Nat` (`none` = JS
`null` / empty slot).  JS array primitives used by the source (`indexOf`,
`includes`, `splice` at `indexOf`, index assignment) are modelled by the
`js*` helpers below.  Presentation-only fields (canvas, coordinates, resize
observers) are outside the simulation core and are not modelled.
-/

/-- Model of JS `Array.prototype.indexOf`: index of the first occurrence of
`x` in `l`, or `-1` when `x` does not occur. -/
def jsIndexOf {α : Type} [DecidableEq α] : List α → α → Int
  | [], _ => -1
  | a :: rest, x =>
    if a = x then 0
    else
      let r := jsIndexOf rest x
      if r = -1 then -1 else r + 1

/-- Model of JS indexed assignment `l[i] = v` as used by the source: the
source only ever writes at an index returned by `indexOf` (hence in range)
or at `-1` when no victim was found; a JS write at index `-1` creates a
property that is invisible to every later element read, so it is modelled
as the identity. -/
def jsSet {α : Type} (l : List α) (i : Int) (x : α) : List α :=
  if 0 ≤ i then l.set i.toNat x else l

/-- Model of a JS indexed read `l[i]` on a frames array: `none` stands both
for a stored `null` and for the out-of-range `undefined`. -/
def jsGet (l : List (Option Nat)) (i : Int) : Option Nat :=
  if 0 ≤ i then l.getD i.toNat none else none

/-- Statistics record, as in `initState`: `{ pageFaults: 0, pageHits: 0 }`. -/
structure Stats where
  pageFaults : Nat
  pageHits : Nat
  deriving DecidableEq, Repr

/-- Events stored in `lastEvent` by the class-based controller and the
`*Step` algorithm functions.  Each constructor carries exactly the fields
written at the corresponding assignment site in the source (`START` and
`DONE` are written with `page: null, replaced: null`; `HIT` is always
written with `replaced: null, replacedFrameIndex: -1`). -/
inductive Ev where
  | START : Ev
  | DONE : Ev
  | HIT (page : Nat) (replaced : Option Nat) (replacedFrameIndex : Int) : Ev
  | FAULT (page : Nat) (replaced : Option Nat) (replacedFrameIndex : Int) : Ev
  deriving DecidableEq, Repr

/-- The logical fields of the controller's `currentState` object
(`initState` in `simulation.js`); the `coords` field is drawing data and is
not part of the simulation core. -/
structure SimState where
  frames : List (Option Nat)
  pageIndex : Nat
  stats : Stats
  fifoPointer : Nat
  lruQueue : List Nat
  lastEvent : Ev
  deriving DecidableEq, Repr

/-- One step of FIFO (`fifoStep` in `algorithms.js`). -/
def fifoStep (state : SimState) (currentPage : Nat) : SimState :=
  if some currentPage ∈ state.frames then
    { state with
      stats := { state.stats with pageHits := state.stats.pageHits + 1 }
      lastEvent := .HIT currentPage none (-1) }
  else
    let victimIndex : Int := (state.fifoPointer : Int)
    let victimPage := jsGet state.frames victimIndex
    let newFrames := jsSet state.frames victimIndex (some currentPage)
    { state with
      stats := { state.stats with pageFaults := state.stats.pageFaults + 1 }
      frames := newFrames
      fifoPointer := (state.fifoPointer + 1) % newFrames.length
      lastEvent := .FAULT currentPage victimPage victimIndex }

/-- The victim-search loop in `lruStep`: the first page of the queue that is
currently in a frame (`null`, i.e. `none`, when no queue entry is
resident). -/
def firstResident : List Nat → List (Option Nat) → Option Nat
  | [], _ => none
  | q :: rest, frames =>
    if some q ∈ frames then some q else firstResident rest frames

/-- One step of LRU (`lruStep` in `algorithms.js`).  The queue update
(`splice` at `indexOf` when present, then `push`) is modelled by
`List.erase` followed by append. -/
def lruStep (state : SimState) (currentPage : Nat) : SimState :=
  let lruQueue2 := state.lruQueue.erase currentPage ++ [currentPage]
  if some currentPage ∈ state.frames then
    { state with
      lruQueue := lruQueue2
      stats := { state.stats with pageHits := state.stats.pageHits + 1 }
      lastEvent := .HIT currentPage none (-1) }
  else if none ∈ state.frames then
    let victimIndex := jsIndexOf state.frames none
    { state with
      lruQueue := lruQueue2
      stats := { state.stats with pageFaults := state.stats.pageFaults + 1 }
      frames := jsSet state.frames victimIndex (some currentPage)
      lastEvent := .FAULT currentPage none victimIndex }
  else
    let victimPage := firstResident lruQueue2 state.frames
    let victimIndex := jsIndexOf state.frames victimPage
    let lruQueue3 :=
      match victimPage with
      | some v => lruQueue2.erase v
      | none => lruQueue2
    { state with
      lruQueue := lruQueue3
      stats := { state.stats with pageFaults := state.stats.pageFaults + 1 }
      frames := jsSet state.frames victimIndex (some currentPage)
      lastEvent := .FAULT currentPage victimPage victimIndex }

/-- `futureString.indexOf(framePage)` where `framePage` may be `null`:
a `null` slot never compares equal to a number, so the result is `-1`. -/
def optFutureIdx (future : List Nat) : Option Nat → Int
  | some p => jsIndexOf future p
  | none => -1

/-- The victim-search loop on a full frame set, written out identically in
`optimalStep` and `runOptimal`: scan the slots in order; the first page
with no future use wins immediately (`break`); otherwise keep the first
page whose next use is strictly furthest.  Arguments `i`, `maxFut`, `vIdx`,
`vPage` are the loop counter and the three accumulator variables
(`maxFutureIndex`, `victimIndex`, `victimPage`), initially
`0, -1, -1, null`. -/
def optScan (future : List Nat) :
    List (Option Nat) → Nat → Int → Int → Option Nat → Int × Option Nat
  | [], _, _, vIdx, vPage => (vIdx, vPage)
  | f :: rest, i, maxFut, vIdx, vPage =>
    let fu := optFutureIdx future f
    if fu = -1 then ((i : Int), f)
    else if maxFut < fu then optScan future rest (i + 1) fu (i : Int) f
    else optScan future rest (i + 1) maxFut vIdx vPage

/-- One step of Optimal (`optimalStep` in `algorithms.js`). -/
def optimalStep (state : SimState) (currentPage : Nat)
    (futureString : List Nat) : SimState :=
  if some currentPage ∈ state.frames then
    { state with
      stats := { state.stats with pageHits := state.stats.pageHits + 1 }
      lastEvent := .HIT currentPage none (-1) }
  else if none ∈ state.frames then
    let victimIndex := jsIndexOf state.frames none
    { state with
      stats := { state.stats with pageFaults := state.stats.pageFaults + 1 }
      frames := jsSet state.frames victimIndex (some currentPage)
      lastEvent := .FAULT currentPage none victimIndex }
  else
    let scan := optScan futureString state.frames 0 (-1) (-1) none
    let victimIndex := scan.1
    let victimPage := scan.2
    { state with
      stats := { state.stats with pageFaults := state.stats.pageFaults + 1 }
      frames := jsSet state.frames victimIndex (some currentPage)
      lastEvent := .FAULT currentPage victimPage victimIndex }

/-- Events produced by the `run*` functions and stored in the module-level
`lastEvent`; each constructor carries exactly the fields present in the
corresponding object literal (note `frameIndex`, not `replacedFrameIndex`,
and no `replaced` field on a hit). -/
inductive REv where
  | IDLE : REv
  | START : REv
  | DONE : REv
  | HIT (page : Nat) : REv
  | FAULT (page : Nat) (replaced : Option Nat) (frameIndex : Int) : REv
  deriving DecidableEq, Repr

/-- Result record of `runFifo`. -/
structure FifoResult where
  newFrames : List (Option Nat)
  fifoPointer : Nat
  event : REv
  deriving DecidableEq, Repr

/-- One FIFO step (`runFifo` in `algorithms.js`, second half). -/
def runFifo (currentFrames : List (Option Nat)) (currentPointer : Nat)
    (page : Nat) : FifoResult :=
  if some page ∈ currentFrames then
    { newFrames := currentFrames, fifoPointer := currentPointer
      event := .HIT page }
  else
    let victimIndex : Int := (currentPointer : Int)
    let replacedPage := jsGet currentFrames victimIndex
    let newFrames := jsSet currentFrames victimIndex (some page)
    let newPointer := (currentPointer + 1) % newFrames.length
    { newFrames := newFrames, fifoPointer := newPointer
      event := .FAULT page replacedPage victimIndex }

/-- Result record of `runLru`. -/
structure LruResult where
  newFrames : List (Option Nat)
  lruQueue : List Nat
  event : REv
  deriving DecidableEq, Repr

/-- One LRU step (`runLru` in `algorithms.js`, second half).  The victim
search uses `Array.prototype.find`; `newFrames.indexOf(lruPage)` with
`lruPage = undefined` is `-1` since the frames hold only numbers and
`null`. -/
def runLru (currentFrames : List (Option Nat)) (currentQueue : List Nat)
    (page : Nat) : LruResult :=
  let newQueue2 := currentQueue.erase page ++ [page]
  if some page ∈ currentFrames then
    { newFrames := currentFrames, lruQueue := newQueue2, event := .HIT page }
  else
    let emptyIndex := jsIndexOf currentFrames none
    if -1 < emptyIndex then
      { newFrames := jsSet currentFrames emptyIndex (some page)
        lruQueue := newQueue2
        event := .FAULT page none emptyIndex }
    else
      let lruPage := newQueue2.find? (fun p => some p ∈ currentFrames)
      let victimIndex : Int :=
        match lruPage with
        | some v => jsIndexOf currentFrames (some v)
        | none => -1
      let newQueue3 :=
        match lruPage with
        | some v => newQueue2.erase v
        | none => newQueue2
      { newFrames := jsSet currentFrames victimIndex (some page)
        lruQueue := newQueue3
        event := .FAULT page lruPage victimIndex }

/-- Result record of `runOptimal`. -/
structure OptimalResult where
  newFrames : List (Option Nat)
  event : REv
  deriving DecidableEq, Repr

/-- One Optimal step (`runOptimal` in `algorithms.js`, second half); its
victim-search loop is written out identically to the one in `optimalStep`
and is modelled by the shared `optScan`. -/
def runOptimal (currentFrames : List (Option Nat)) (page : Nat)
    (futurePages : List Nat) : OptimalResult :=
  if some page ∈ currentFrames then
    { newFrames := currentFrames, event := .HIT page }
  else if none ∈ currentFrames then
    let victimIndex := jsIndexOf currentFrames none
    { newFrames := jsSet currentFrames victimIndex (some page)
      event := .FAULT page none victimIndex }
  else
    let scan := optScan futurePages currentFrames 0 (-1) (-1) none
    { newFrames := jsSet currentFrames scan.1 (some page)
      event := .FAULT page scan.2 scan.1 }

/-- The algorithm selector string (`'fifo' | 'lru' | 'optimal'`), a closed
set of values in both engines. -/
inductive Algo where
  | fifo
  | lru
  | optimal
  deriving DecidableEq, Repr

/-- The class-based engine (`SimulationController` in `simulation.js`):
its logical fields are the configuration, the snapshot history, the current
state and the finished flag.  The snapshot history is stored most-recent
first (the JS array's end, where `push`/`pop` operate, is the list head).
`JSON`-based deep copies in `recordState` and `stepBackward` are the
identity on these value-typed fields. -/
structure SimulationController where
  algorithm : Algo
  numFrames : Nat
  pageString : List Nat
  stateHistory : List SimState
  currentState : SimState
  isFinished : Bool
  deriving DecidableEq, Repr

/-- The state built by `initState`. -/
def initSimState (numFrames : Nat) : SimState :=
  { frames := List.replicate numFrames none
    pageIndex := 0
    stats := { pageFaults := 0, pageHits := 0 }
    fifoPointer := 0
    lruQueue := []
    lastEvent := .START }

/-- The controller constructor: `initState()` followed by `recordState()`. -/
def mkController (algo : Algo) (numFrames : Nat) (pageString : List Nat) :
    SimulationController :=
  { algorithm := algo
    numFrames := numFrames
    pageString := pageString
    stateHistory := [initSimState numFrames]
    currentState := initSimState numFrames
    isFinished := false }

/-- The body of `stepForward`'s normal branch: fetch the current reference,
run the selected algorithm on the state, then `pageIndex++`. -/
def processOne (algo : Algo) (pageString : List Nat) (s : SimState) :
    SimState :=
  let currentPage := pageString.getD s.pageIndex 0
  let result :=
    match algo with
    | .fifo => fifoStep s currentPage
    | .lru => lruStep s currentPage
    | .optimal => optimalStep s currentPage (pageString.drop (s.pageIndex + 1))
  { result with pageIndex := result.pageIndex + 1 }

/-- The terminal branch of `stepForward`: set `lastEvent` to `DONE`. -/
def markDone (s : SimState) : SimState :=
  { s with lastEvent := .DONE }

/-- `SimulationController.stepForward`. -/
def stepForward (c : SimulationController) : SimulationController :=
  if c.isFinished then c
  else if c.pageString.length ≤ c.currentState.pageIndex then
    let done := markDone c.currentState
    { c with
      isFinished := true
      currentState := done
      stateHistory := done :: c.stateHistory }
  else
    let next := processOne c.algorithm c.pageString c.currentState
    { c with
      currentState := next
      stateHistory := next :: c.stateHistory }

/-- `SimulationController.stepBackward`: when more than one snapshot
remains, pop the current one and restore the previous snapshot, clearing
the finished flag; otherwise a no-op. -/
def stepBackward (c : SimulationController) : SimulationController :=
  match c.stateHistory with
  | _cur :: prev :: rest =>
    { c with
      stateHistory := prev :: rest
      currentState := prev
      isFinished := false }
  | _ => c

/-- The module-level engine state of the alternate `simulation.js`: the
top-level mutable variables `frames`, `pageList`, `pageIndex`, `faults`,
`hits`, `isFinished`, `lastEvent`, `currentAlgo`, `fifoPointer`,
`lruQueue`. -/
structure MState where
  frames : List (Option Nat)
  pageList : List Nat
  pageIndex : Nat
  faults : Nat
  hits : Nat
  isFinished : Bool
  lastEvent : REv
  currentAlgo : Algo
  fifoPointer : Nat
  lruQueue : List Nat
  deriving DecidableEq, Repr

namespace ModuleSim

/-- The module-level `stepForward` of the alternate `simulation.js`:
refuse (emitting `DONE`) when finished or past the end; otherwise run the
selected `run*` function, commit its results, count the event, advance the
index, and mark finished (overwriting `lastEvent` with `DONE`) when the
index has reached the end. -/
def stepForward (m : MState) : MState :=
  if m.isFinished ∨ m.pageList.length ≤ m.pageIndex then
    { m with isFinished := true, lastEvent := .DONE }
  else
    let currentPage := m.pageList.getD m.pageIndex 0
    let upd : List (Option Nat) × Nat × List Nat × REv :=
      match m.currentAlgo with
      | .fifo =>
        let r := runFifo m.frames m.fifoPointer currentPage
        (r.newFrames, r.fifoPointer, m.lruQueue, r.event)
      | .lru =>
        let r := runLru m.frames m.lruQueue currentPage
        (r.newFrames, m.fifoPointer, r.lruQueue, r.event)
      | .optimal =>
        let r := runOptimal m.frames currentPage
          (m.pageList.drop (m.pageIndex + 1))
        (r.newFrames, m.fifoPointer, m.lruQueue, r.event)
    let hits2 := match upd.2.2.2 with | .HIT _ => m.hits + 1 | _ => m.hits
    let faults2 :=
      match upd.2.2.2 with | .FAULT _ _ _ => m.faults + 1 | _ => m.faults
    let newIndex := m.pageIndex + 1
    if m.pageList.length ≤ newIndex then
      { m with
        frames := upd.1, fifoPointer := upd.2.1, lruQueue := upd.2.2.1
        hits := hits2, faults := faults2, pageIndex := newIndex
        lastEvent := .DONE, isFinished := true }
    else
      { m with
        frames := upd.1, fifoPointer := upd.2.1, lruQueue := upd.2.2.1
        hits := hits2, faults := faults2, pageIndex := newIndex
        lastEvent := upd.2.2.2 }

end ModuleSim

/-- Run a freshly configured class-based simulation over the whole
reference sequence: one `stepForward` per reference. -/
def runSim (algo : Algo) (numFrames : Nat) (refs : List Nat) :
    SimulationController :=
  stepForward^[refs.length] (mkController algo numFrames refs)

/-- A controller that has reached the terminal state: one reference
processed, then the `DONE` step. -/
def doneCtrl : SimulationController :=
  stepForward (stepForward (mkController .fifo 1 [5]))

theorem fifoStep_pageIndex (s : SimState) (p : Nat) :
    (fifoStep s p).pageIndex = s.pageIndex := by
  unfold fifoStep; split <;> rfl

theorem lruStep_pageIndex (s : SimState) (p : Nat) :
    (lruStep s p).pageIndex = s.pageIndex := by
  unfold lruStep; split
  · rfl
  · split <;> rfl

theorem optimalStep_pageIndex (s : SimState) (p : Nat) (fut : List Nat) :
    (optimalStep s p fut).pageIndex = s.pageIndex := by
  unfold optimalStep; split
  · rfl
  · split <;> rfl

theorem processOne_pageIndex (algo : Algo) (refs : List Nat) (s : SimState) :
    (processOne algo refs s).pageIndex = s.pageIndex + 1 := by
  cases algo <;>
    simp [processOne, fifoStep_pageIndex, lruStep_pageIndex,
      optimalStep_pageIndex]

theorem fifoStep_stats (s : SimState) (p : Nat) :
    (fifoStep s p).stats = { s.stats with pageHits := s.stats.pageHits + 1 } ∨
    (fifoStep s p).stats =
      { s.stats with pageFaults := s.stats.pageFaults + 1 } := by
  unfold fifoStep; split
  · exact Or.inl rfl
  · exact Or.inr rfl

theorem lruStep_stats (s : SimState) (p : Nat) :
    (lruStep s p).stats = { s.stats with pageHits := s.stats.pageHits + 1 } ∨
    (lruStep s p).stats =
      { s.stats with pageFaults := s.stats.pageFaults + 1 } := by
  unfold lruStep; split
  · exact Or.inl rfl
  · split
    · exact Or.inr rfl
    · exact Or.inr rfl

theorem optimalStep_stats (s : SimState) (p : Nat) (fut : List Nat) :
    (optimalStep s p fut).stats =
      { s.stats with pageHits := s.stats.pageHits + 1 } ∨
    (optimalStep s p fut).stats =
      { s.stats with pageFaults := s.stats.pageFaults + 1 } := by
  unfold optimalStep; split
  · exact Or.inl rfl
  · split
    · exact Or.inr rfl
    · exact Or.inr rfl

theorem processOne_stats (algo : Algo) (refs : List Nat) (s : SimState) :
    (processOne algo refs s).stats =
      { s.stats with pageHits := s.stats.pageHits + 1 } ∨
    (processOne algo refs s).stats =
      { s.stats with pageFaults := s.stats.pageFaults + 1 } := by
  cases algo
  · exact fifoStep_stats s _
  · exact lruStep_stats s _
  · exact optimalStep_stats s _ _

theorem stepForward_finished (c : SimulationController)
    (h : c.isFinished = true) : stepForward c = c := by
  simp [stepForward, h]

theorem stepForward_done (c : SimulationController)
    (h1 : c.isFinished = false)
    (h2 : c.pageString.length ≤ c.currentState.pageIndex) :
    stepForward c =
      { c with
        isFinished := true
        currentState := markDone c.currentState
        stateHistory := markDone c.currentState :: c.stateHistory } := by
  simp [stepForward, h1, h2]

theorem stepForward_normal (c : SimulationController)
    (h1 : c.isFinished = false)
    (h2 : c.currentState.pageIndex < c.pageString.length) :
    stepForward c =
      { c with
        currentState := processOne c.algorithm c.pageString c.currentState
        stateHistory :=
          processOne c.algorithm c.pageString c.currentState ::
            c.stateHistory } := by
  simp [stepForward, h1, Nat.not_le.mpr h2]

/-- C1 counterexample: the claimed statistics
(FIFO 6 faults / 2 hits, LRU 7 faults / 1 hit, Optimal 5 faults / 3 hits)
for frameCount = 3 and references [7,0,1,2,0,3,0,4] do not all hold on the
code. -/
theorem C1_counterexample :
    ¬((runSim .fifo 3 [7, 0, 1, 2, 0, 3, 0, 4]).currentState.stats =
        { pageFaults := 6, pageHits := 2 } ∧
      (runSim .lru 3 [7, 0, 1, 2, 0, 3, 0, 4]).currentState.stats =
        { pageFaults := 7, pageHits := 1 } ∧
      (runSim .optimal 3 [7, 0, 1, 2, 0, 3, 0, 4]).currentState.stats =
        { pageFaults := 5, pageHits := 3 }) := by
  decide

/-- C1 (amended): for frameCount = 3 and references [7,0,1,2,0,3,0,4] the
simulation yields faults = 7, hits = 1 under FIFO, faults = 6, hits = 2
under LRU, and faults = 6, hits = 2 under Optimal (6 distinct pages occur,
so no policy can fault fewer than 6 times). -/
theorem C1_example_stats :
    (runSim .fifo 3 [7, 0, 1, 2, 0, 3, 0, 4]).currentState.stats =
      { pageFaults := 7, pageHits := 1 } ∧
    (runSim .lru 3 [7, 0, 1, 2, 0, 3, 0, 4]).currentState.stats =
      { pageFaults := 6, pageHits := 2 } ∧
    (runSim .optimal 3 [7, 0, 1, 2, 0, 3, 0, 4]).currentState.stats =
      { pageFaults := 6, pageHits := 2 } := by
  decide

/-- C3 counterexample: on the class-based controller, the `stepForward`
call that processes the final reference (frameCount 1, references [5])
brings the cursor to the reference-sequence length but does not mark the
engine finished in that same step. -/
theorem C3_counterexample :
    (stepForward (mkController .fifo 1 [5])).currentState.pageIndex =
      (mkController .fifo 1 [5]).pageString.length ∧
    (stepForward (mkController .fifo 1 [5])).isFinished = false := by
  decide

/-- C3 (amended): in the class-based controller, the step that processes
the final reference leaves the finished flag unset even though the cursor
reaches the sequence length; the `Finished` mark (together with the `DONE`
event) happens only on the next `stepForward` call.  The module-level
engine, by contrast, does mark finished and emit `DONE` in the same step
that processes the final reference. -/
theorem C3_finished_marking (c : SimulationController)
    (h1 : c.isFinished = false)
    (h2 : c.currentState.pageIndex + 1 = c.pageString.length) :
    ((stepForward c).isFinished = false ∧
     (stepForward c).currentState.pageIndex = c.pageString.length ∧
     (stepForward (stepForward c)).isFinished = true ∧
     (stepForward (stepForward c)).currentState.lastEvent = Ev.DONE) ∧
    (∀ m : MState, m.isFinished = false →
      m.pageIndex + 1 = m.pageList.length →
      (ModuleSim.stepForward m).isFinished = true ∧
      (ModuleSim.stepForward m).lastEvent = REv.DONE) := by
  constructor
  · have hlt : c.currentState.pageIndex < c.pageString.length := by omega
    have hfwd := stepForward_normal c h1 hlt
    have hfin : (stepForward c).isFinished = false := by rw [hfwd]; exact h1
    have hidx : (stepForward c).currentState.pageIndex =
        c.pageString.length := by
      rw [hfwd]; simp only [processOne_pageIndex]; omega
    have hps : (stepForward c).pageString = c.pageString := by rw [hfwd]
    have h2nd := stepForward_done (stepForward c) hfin
      (by rw [hps, hidx])
    refine ⟨hfin, hidx, by rw [h2nd], by rw [h2nd]; rfl⟩
  · intro m hm1 hm2
    have hlt : m.pageIndex < m.pageList.length := by omega
    have hg : ¬(m.isFinished = true ∨ m.pageList.length ≤ m.pageIndex) := by
      simp [hm1]; omega
    simp only [ModuleSim.stepForward, if_neg hg]
    simp [Nat.le_of_eq hm2.symm]

/-- A freshly configured module-level engine: the variables as `setupSim`
leaves them for one frame and reference list [5]. -/
def mInit5 : MState :=
  { frames := [none], pageList := [5], pageIndex := 0, faults := 0
    hits := 0, isFinished := false, lastEvent := .START
    currentAlgo := .fifo, fifoPointer := 0, lruQueue := [] }

theorem C3_witness :
    (stepForward (stepForward (mkController .fifo 1 [5]))).isFinished =
      true ∧
    (ModuleSim.stepForward mInit5).isFinished = true :=
  ⟨(C3_finished_marking (mkController .fifo 1 [5]) (by decide)
      (by decide)).1.2.2.1,
   ((C3_finished_marking (mkController .fifo 1 [5]) (by decide)
      (by decide)).2 mInit5 (by decide) (by decide)).1⟩

/-- C4 counterexample: after the terminal `DONE` has been emitted
(`doneCtrl`), a `stepBackward` followed by `stepForward` — with no reset in
between — is not rejected (it changes the engine state) and emits `DONE` a
second time. -/
theorem C4_counterexample :
    doneCtrl.isFinished = true ∧
    doneCtrl.currentState.lastEvent = Ev.DONE ∧
    stepForward (stepBackward doneCtrl) ≠ stepBackward doneCtrl ∧
    (stepForward (stepBackward doneCtrl)).currentState.lastEvent =
      Ev.DONE := by
  decide

/-- C4 (amended): while the finished flag remains set, every further
`stepForward` call is refused and leaves the whole engine — frames, cursor,
policy state, stats and snapshot history — unchanged; the refusal is
silent (the function simply returns).  `DONE` can be emitted again without
a reset when a `stepBackward` intervenes: each terminal reach re-emits
it. -/
theorem C4_step_after_finished (c : SimulationController)
    (h : c.isFinished = true) : stepForward c = c :=
  stepForward_finished c h

theorem C4_witness : stepForward doneCtrl = doneCtrl :=
  C4_step_after_finished doneCtrl (by decide)

/-- C9 counterexample: one committed FIFO step on a one-frame simulation
records a fault; the following `stepBackward` restores the previous
snapshot and thereby lowers the fault counter. -/
theorem C9_counterexample :
    (stepBackward
        (stepForward (mkController .fifo 1 [5]))).currentState.stats.pageFaults <
      (stepForward (mkController .fifo 1 [5])).currentState.stats.pageFaults := by
  decide

/-- C9 (amended): the hits and faults counters never decrease across any
`stepForward` call; `stepBackward`, however, restores the counters of the
previous snapshot and can therefore lower them — only forward stepping is
monotone. -/
theorem C9_forward_monotone :
    ∀ c : SimulationController,
      c.currentState.stats.pageHits ≤
        (stepForward c).currentState.stats.pageHits ∧
      c.currentState.stats.pageFaults ≤
        (stepForward c).currentState.stats.pageFaults := by
  intro c
  by_cases hf : c.isFinished
  · rw [stepForward_finished c hf]
    exact ⟨Nat.le_refl _, Nat.le_refl _⟩
  · have hf2 : c.isFinished = false := by simpa using hf
    by_cases hle : c.pageString.length ≤ c.currentState.pageIndex
    · rw [stepForward_done c hf2 hle]
      exact ⟨Nat.le_refl _, Nat.le_refl _⟩
    · have hlt := Nat.lt_of_not_le hle
      rw [stepForward_normal c hf2 hlt]
      rcases processOne_stats c.algorithm c.pageString c.currentState with
        h | h <;> constructor <;> simp [h]

theorem jsIndexOf_neg_one_or_nonneg {α : Type} [DecidableEq α]
    (l : List α) (x : α) : jsIndexOf l x = -1 ∨ 0 ≤ jsIndexOf l x := by
  induction l with
  | nil => exact Or.inl rfl
  | cons a rest ih =>
    simp only [jsIndexOf]
    by_cases hax : a = x
    · simp [hax]
    · rcases ih with h | h
      · simp [hax, h]
      · have : ¬jsIndexOf rest x = -1 := by omega
        simp only [hax, if_false, this]
        omega

theorem jsIndexOf_eq_neg_one_iff {α : Type} [DecidableEq α]
    (l : List α) (x : α) : jsIndexOf l x = -1 ↔ x ∉ l := by
  induction l with
  | nil => simp [jsIndexOf]
  | cons a rest ih =>
    simp only [jsIndexOf]
    by_cases hax : a = x
    · subst hax; simp
    · by_cases hr : jsIndexOf rest x = -1
      · simp [hax, hr, Ne.symm hax, ih.mp hr]
      · rcases jsIndexOf_neg_one_or_nonneg rest x with h | h
        · exact absurd h hr
        · have hmem : x ∈ rest := by
            by_contra hc
            exact hr (ih.mpr hc)
          simp only [hax, if_false, hr, if_neg]
          constructor
          · intro hcon; omega
          · intro hcon
            exact absurd (List.mem_cons_of_mem a hmem) hcon

theorem neg_one_lt_jsIndexOf_iff {α : Type} [DecidableEq α]
    (l : List α) (x : α) : -1 < jsIndexOf l x ↔ x ∈ l := by
  rcases jsIndexOf_neg_one_or_nonneg l x with h | h
  · rw [h]
    simp only [lt_irrefl, false_iff]
    exact (jsIndexOf_eq_neg_one_iff l x).mp h
  · constructor
    · intro _
      by_contra hc
      have := (jsIndexOf_eq_neg_one_iff l x).mpr hc
      omega
    · intro _; omega

theorem firstResident_eq_find? (q : List Nat) (frames : List (Option Nat)) :
    firstResident q frames = q.find? (fun p => decide (some p ∈ frames)) := by
  induction q with
  | nil => rfl
  | cons a rest ih =>
    by_cases h : some a ∈ frames
    · simp [firstResident, List.find?, h]
    · simp [firstResident, List.find?, h, ih]

/-- Agreement between a `run*`-style event and a `*Step`-style event: same
hit-versus-fault classification with the same page, and on a fault the same
replaced page and the same victim slot index (on a hit the `*Step` event
additionally carries the constant fields `replaced = null`,
`replacedFrameIndex = -1`). -/
def evAgree : REv → Ev → Prop
  | .HIT p, .HIT q r i => p = q ∧ r = none ∧ i = -1
  | .FAULT p r i, .FAULT q r2 i2 => p = q ∧ r = r2 ∧ i = i2
  | _, _ => False

/-- C10: the two implementations of each policy present in `algorithms.js`
agree, for every frame configuration, policy state and page reference, on
the resulting frames, the updated policy state (FIFO pointer / LRU queue),
and the event (hit-versus-fault classification, replaced page, victim slot
index). -/
theorem C10_run_step_equivalence :
    ∀ (s : SimState) (page : Nat) (future : List Nat),
      ((runFifo s.frames s.fifoPointer page).newFrames =
          (fifoStep s page).frames ∧
        (runFifo s.frames s.fifoPointer page).fifoPointer =
          (fifoStep s page).fifoPointer ∧
        evAgree (runFifo s.frames s.fifoPointer page).event
          (fifoStep s page).lastEvent) ∧
      ((runLru s.frames s.lruQueue page).newFrames =
          (lruStep s page).frames ∧
        (runLru s.frames s.lruQueue page).lruQueue =
          (lruStep s page).lruQueue ∧
        evAgree (runLru s.frames s.lruQueue page).event
          (lruStep s page).lastEvent) ∧
      ((runOptimal s.frames page future).newFrames =
          (optimalStep s page future).frames ∧
        evAgree (runOptimal s.frames page future).event
          (optimalStep s page future).lastEvent) := by
  intro s page future
  refine ⟨?_, ?_, ?_⟩
  · by_cases h : some page ∈ s.frames <;>
      simp [runFifo, fifoStep, h, evAgree]
  · by_cases h1 : some page ∈ s.frames
    · simp [runLru, lruStep, h1, evAgree]
    · by_cases h2 : none ∈ s.frames
      · have hpos : -1 < jsIndexOf s.frames none :=
          (neg_one_lt_jsIndexOf_iff s.frames none).mpr h2
        simp [runLru, lruStep, h1, h2, hpos, evAgree]
      · have hneg : jsIndexOf s.frames none = -1 :=
          (jsIndexOf_eq_neg_one_iff s.frames none).mpr h2
        have hnpos : ¬(-1 < jsIndexOf s.frames none) := by omega
        simp only [runLru, lruStep, h1, h2, if_false, hnpos,
          firstResident_eq_find?]
        cases hfind : s.lruQueue.erase page ++ [page] |>.find?
            (fun p => decide (some p ∈ s.frames)) with
        | none => simp [evAgree, hneg]
        | some v => simp [evAgree]
  · by_cases h1 : some page ∈ s.frames
    · simp [runOptimal, optimalStep, h1, evAgree]
    · by_cases h2 : none ∈ s.frames <;>
        simp [runOptimal, optimalStep, h1, h2, evAgree]

/-- States of the class-based engine reachable through its public stepping
interface from a validly configured simulation (`handleStart` in `main.js`
admits a frame count between 1 and 8 and a non-empty reference list). -/
inductive Reach : SimulationController → Prop where
  | init (algo : Algo) (numFrames : Nat) (refs : List Nat)
      (h1 : 1 ≤ numFrames) (h2 : numFrames ≤ 8) (h3 : refs ≠ []) :
      Reach (mkController algo numFrames refs)
  | fwd {c : SimulationController} : Reach c → Reach (stepForward c)
  | bwd {c : SimulationController} : Reach c → Reach (stepBackward c)

/-- A state predicate holding for the current state and every recorded
snapshot. -/
def HistInv (P : SimState → Prop) (c : SimulationController) : Prop :=
  P c.currentState ∧ ∀ s ∈ c.stateHistory, P s

theorem stepForward_algorithm (c : SimulationController) :
    (stepForward c).algorithm = c.algorithm := by
  unfold stepForward; split
  · rfl
  · split <;> rfl

theorem stepForward_numFrames (c : SimulationController) :
    (stepForward c).numFrames = c.numFrames := by
  unfold stepForward; split
  · rfl
  · split <;> rfl

theorem stepForward_pageString (c : SimulationController) :
    (stepForward c).pageString = c.pageString := by
  unfold stepForward; split
  · rfl
  · split <;> rfl

theorem stepBackward_algorithm (c : SimulationController) :
    (stepBackward c).algorithm = c.algorithm := by
  unfold stepBackward; split <;> rfl

theorem stepBackward_numFrames (c : SimulationController) :
    (stepBackward c).numFrames = c.numFrames := by
  unfold stepBackward; split <;> rfl

theorem stepBackward_pageString (c : SimulationController) :
    (stepBackward c).pageString = c.pageString := by
  unfold stepBackward; split <;> rfl

/-- Any state predicate that holds initially and is preserved both by the
`DONE` marking and by processing one reference holds, for every reachable
controller, of the current state and of every snapshot in the history
(undo can only reinstate recorded snapshots). -/
theorem reach_histInv (P : Algo → Nat → List Nat → SimState → Prop)
    (hinit : ∀ algo n refs, 1 ≤ n → n ≤ 8 → refs ≠ [] →
      P algo n refs (initSimState n))
    (hdone : ∀ algo n refs s, P algo n refs s → P algo n refs (markDone s))
    (hstep : ∀ algo n refs s, P algo n refs s →
      P algo n refs (processOne algo refs s)) :
    ∀ c, Reach c → HistInv (P c.algorithm c.numFrames c.pageString) c := by
  intro c hc
  induction hc with
  | init algo n refs h1 h2 h3 =>
    refine ⟨hinit algo n refs h1 h2 h3, ?_⟩
    intro s hs
    have : s = initSimState n := by simpa [mkController] using hs
    subst this
    exact hinit algo n refs h1 h2 h3
  | @fwd c _ ih =>
    rw [stepForward_algorithm, stepForward_numFrames, stepForward_pageString]
    obtain ⟨hcur, hhist⟩ := ih
    by_cases hf : c.isFinished
    · rw [stepForward_finished c hf]; exact ⟨hcur, hhist⟩
    · have hf2 : c.isFinished = false := by simpa using hf
      by_cases hle : c.pageString.length ≤ c.currentState.pageIndex
      · rw [stepForward_done c hf2 hle]
        refine ⟨hdone _ _ _ _ hcur, ?_⟩
        intro s hs
        rcases List.mem_cons.mp hs with rfl | hs
        · exact hdone _ _ _ _ hcur
        · exact hhist s hs
      · rw [stepForward_normal c hf2 (Nat.lt_of_not_le hle)]
        refine ⟨hstep _ _ _ _ hcur, ?_⟩
        intro s hs
        rcases List.mem_cons.mp hs with rfl | hs
        · exact hstep _ _ _ _ hcur
        · exact hhist s hs
  | @bwd c _ ih =>
    rw [stepBackward_algorithm, stepBackward_numFrames,
      stepBackward_pageString]
    obtain ⟨hcur, hhist⟩ := ih
    rcases hh : c.stateHistory with _ | ⟨cur, _ | ⟨prev, rest⟩⟩
    · simpa [stepBackward, hh] using ⟨hcur, hhist⟩
    · simpa [stepBackward, hh] using ⟨hcur, hhist⟩
    · have hb : stepBackward c =
          { c with
            stateHistory := prev :: rest
            currentState := prev
            isFinished := false } := by
        simp [stepBackward, hh]
      rw [hb]
      refine ⟨?_, ?_⟩
      · refine hhist prev ?_
        rw [hh]
        exact List.mem_cons_of_mem _ (List.mem_cons_self _ _)
      · intro s hs
        refine hhist s ?_
        rw [hh]
        exact List.mem_cons_of_mem _ hs

/-- For every reachable controller the top of the snapshot history is the
current state. -/
theorem reach_head (c : SimulationController) (hc : Reach c) :
    ∃ t, c.stateHistory = c.currentState :: t := by
  induction hc with
  | init algo n refs h1 h2 h3 => exact ⟨[], rfl⟩
  | @fwd c _ ih =>
    by_cases hf : c.isFinished
    · rw [stepForward_finished c hf]; exact ih
    · have hf2 : c.isFinished = false := by simpa using hf
      by_cases hle : c.pageString.length ≤ c.currentState.pageIndex
      · rw [stepForward_done c hf2 hle]
        exact ⟨c.stateHistory, rfl⟩
      · rw [stepForward_normal c hf2 (Nat.lt_of_not_le hle)]
        exact ⟨c.stateHistory, rfl⟩
  | @bwd c _ ih =>
    rcases hh : c.stateHistory with _ | ⟨cur, _ | ⟨prev, rest⟩⟩
    · rw [show stepBackward c = c from by simp [stepBackward, hh]]
      exact ih
    · rw [show stepBackward c = c from by simp [stepBackward, hh]]
      exact ih
    · rw [show stepBackward c =
          { c with
            stateHistory := prev :: rest
            currentState := prev
            isFinished := false } from by simp [stepBackward, hh]]
      exact ⟨rest, rfl⟩

/-- While the cursor has not passed the end, repeated `stepForward` calls
leave the engine unfinished and advance the cursor by exactly one per
call. -/
theorem iterate_cursor (algo : Algo) (n : Nat) (refs : List Nat) :
    ∀ k, k ≤ refs.length →
      (stepForward^[k] (mkController algo n refs)).isFinished = false ∧
      (stepForward^[k] (mkController algo n refs)).currentState.pageIndex =
        k ∧
      (stepForward^[k] (mkController algo n refs)).pageString = refs := by
  intro k
  induction k with
  | zero => exact fun _ => ⟨rfl, rfl, rfl⟩
  | succ k ih =>
    intro hk
    obtain ⟨hfin, hidx, hps⟩ := ih (Nat.le_of_succ_le hk)
    rw [Function.iterate_succ_apply']
    have hlt : (stepForward^[k] (mkController algo n refs)).currentState.pageIndex <
        (stepForward^[k] (mkController algo n refs)).pageString.length := by
      rw [hidx, hps]; omega
    rw [stepForward_normal _ hfin hlt]
    refine ⟨hfin, ?_, hps⟩
    simp only [processOne_pageIndex]
    omega

theorem reach_iterate (algo : Algo) (n : Nat) (refs : List Nat)
    (h1 : 1 ≤ n) (h2 : n ≤ 8) (h3 : refs ≠ []) (k : Nat) :
    Reach (stepForward^[k] (mkController algo n refs)) := by
  induction k with
  | zero => exact Reach.init algo n refs h1 h2 h3
  | succ k ih =>
    rw [Function.iterate_succ_apply']
    exact Reach.fwd ih

/-- C2: for every configuration and every reachable state, the counters
sum to the cursor; in particular, after any number k of committed forward
steps the counters satisfy hits + faults = k. -/
theorem C2_hits_plus_faults :
    (∀ c : SimulationController, Reach c →
      c.currentState.stats.pageHits + c.currentState.stats.pageFaults =
        c.currentState.pageIndex) ∧
    (∀ (algo : Algo) (n : Nat) (refs : List Nat),
      1 ≤ n → n ≤ 8 → refs ≠ [] → ∀ k, k ≤ refs.length →
      (stepForward^[k]
          (mkController algo n refs)).currentState.stats.pageHits +
        (stepForward^[k]
          (mkController algo n refs)).currentState.stats.pageFaults = k) := by
  have main : ∀ c : SimulationController, Reach c →
      c.currentState.stats.pageHits + c.currentState.stats.pageFaults =
        c.currentState.pageIndex := by
    intro c hc
    refine (reach_histInv
      (fun _ _ _ s =>
        s.stats.pageHits + s.stats.pageFaults = s.pageIndex)
      (fun _ _ _ _ _ _ => rfl)
      (fun _ _ _ s h => by simpa [markDone] using h)
      (fun algo n refs s h => ?_) c hc).1
    rcases processOne_stats algo refs s with hst | hst <;>
      · rw [processOne_pageIndex, hst]
        simp only []
        omega
  refine ⟨main, ?_⟩
  intro algo n refs h1 h2 h3 k hk
  rw [main _ (reach_iterate algo n refs h1 h2 h3 k)]
  exact (iterate_cursor algo n refs k hk).2.1

theorem C2_witness :
    (stepForward (mkController .lru 3 [1, 2])).currentState.stats.pageHits +
      (stepForward (mkController .lru 3 [1, 2])).currentState.stats.pageFaults =
      (stepForward (mkController .lru 3 [1, 2])).currentState.pageIndex ∧
    (stepForward^[2]
        (mkController .fifo 2 [4, 4])).currentState.stats.pageHits +
      (stepForward^[2]
        (mkController .fifo 2 [4, 4])).currentState.stats.pageFaults = 2 :=
  ⟨C2_hits_plus_faults.1 _
      (Reach.fwd (Reach.init .lru 3 [1, 2] (by decide) (by decide)
        (by decide))),
   C2_hits_plus_faults.2 .fifo 2 [4, 4] (by decide) (by decide) (by decide)
      2 (by decide)⟩

/-- C5: from every reachable non-finished state, a `stepForward`
immediately followed by a `stepBackward` restores the frames, the cursor,
the policy state (FIFO pointer and LRU queue) and the statistics to their
values before the forward step. -/
theorem C5_forward_backward (c : SimulationController) (hc : Reach c)
    (hfin : c.isFinished = false) :
    (stepBackward (stepForward c)).currentState.frames =
      c.currentState.frames ∧
    (stepBackward (stepForward c)).currentState.pageIndex =
      c.currentState.pageIndex ∧
    (stepBackward (stepForward c)).currentState.fifoPointer =
      c.currentState.fifoPointer ∧
    (stepBackward (stepForward c)).currentState.lruQueue =
      c.currentState.lruQueue ∧
    (stepBackward (stepForward c)).currentState.stats =
      c.currentState.stats := by
  have key : (stepBackward (stepForward c)).currentState =
      c.currentState := by
    rcases reach_head c hc with ⟨t, ht⟩
    by_cases hle : c.pageString.length ≤ c.currentState.pageIndex
    · rw [stepForward_done c hfin hle]
      simp [stepBackward, ht]
    · rw [stepForward_normal c hfin (Nat.lt_of_not_le hle)]
      simp [stepBackward, ht]
  exact ⟨by rw [key], by rw [key], by rw [key], by rw [key], by rw [key]⟩

theorem C5_witness :
    (stepBackward
        (stepForward (mkController .optimal 2 [3, 4]))).currentState.frames =
      (mkController .optimal 2 [3, 4]).currentState.frames :=
  (C5_forward_backward (mkController .optimal 2 [3, 4])
    (Reach.init .optimal 2 [3, 4] (by decide) (by decide) (by decide))
    rfl).1

theorem jsSet_coe {α : Type} (l : List α) (n : Nat) (x : α) :
    jsSet l (n : Int) x = l.set n x := by
  simp [jsSet]

theorem getD_set_self (l : List (Option Nat)) (j : Nat) (hj : j < l.length)
    (y : Option Nat) : (l.set j y).getD j none = y := by
  rw [List.getD_eq_getElem?_getD, List.getElem?_set_self hj]
  rfl

theorem getD_set_ne (l : List (Option Nat)) (i j : Nat) (h : j ≠ i)
    (y : Option Nat) : (l.set j y).getD i none = l.getD i none := by
  rw [List.getD_eq_getElem?_getD, List.getElem?_set_ne h,
    ← List.getD_eq_getElem?_getD]

theorem mem_iff_getD (l : List (Option Nat)) (x : Option Nat) :
    x ∈ l ↔ ∃ k, k < l.length ∧ l.getD k none = x := by
  rw [List.mem_iff_getElem]
  constructor
  · rintro ⟨n, hn, he⟩
    refine ⟨n, hn, ?_⟩
    rw [List.getD_eq_getElem?_getD, List.getElem?_eq_getElem hn]
    exact he
  · rintro ⟨k, hk, he⟩
    refine ⟨k, hk, ?_⟩
    rw [List.getD_eq_getElem?_getD, List.getElem?_eq_getElem hk] at he
    exact he

theorem jsIndexOf_frames_spec (l : List (Option Nat)) (x : Option Nat)
    (h : x ∈ l) :
    ∃ n : Nat, jsIndexOf l x = (n : Int) ∧ n < l.length ∧
      l.getD n none = x ∧ ∀ k, k < n → l.getD k none ≠ x := by
  induction l with
  | nil => cases h
  | cons a rest ih =>
    by_cases hax : a = x
    · refine ⟨0, ?_, by simp, by simpa [List.getD_cons_zero] using hax, ?_⟩
      · simp [jsIndexOf, hax]
      · intro k hk; omega
    · have hx : x ∈ rest := by
        rcases List.mem_cons.mp h with h1 | h1
        · exact absurd h1.symm hax
        · exact h1
      obtain ⟨n, hn_eq, hn_lt, hn_getD, hn_min⟩ := ih hx
      have hne : ¬jsIndexOf rest x = -1 := by
        rw [hn_eq]; omega
      refine ⟨n + 1, ?_, by simpa using Nat.succ_lt_succ hn_lt, ?_, ?_⟩
      · simp only [jsIndexOf, hax, if_false, hne]
        rw [hn_eq]; push_cast; ring
      · simpa [List.getD_cons_succ] using hn_getD
      · intro k hk
        cases k with
        | zero => simpa [List.getD_cons_zero] using hax
        | succ k =>
          rw [List.getD_cons_succ]
          exact hn_min k (by omega)

/-- The FIFO frame/pointer invariant: whenever an empty slot exists, the
slots form a fully occupied prefix followed by empty slots, and the
rotating pointer addresses the first empty slot. -/
def FifoInv (frames : List (Option Nat)) (ptr : Nat) : Prop :=
  none ∈ frames →
    ptr < frames.length ∧ (∀ i, i < ptr → frames.getD i none ≠ none) ∧
    ∀ i, ptr ≤ i → i < frames.length → frames.getD i none = none

theorem getD_replicate_none :
    ∀ n i : Nat, (List.replicate n (none : Option Nat)).getD i none = none
  | 0, _ => rfl
  | _ + 1, 0 => rfl
  | n + 1, i + 1 => by
    rw [List.replicate_succ, List.getD_cons_succ]
    exact getD_replicate_none n i

theorem fifoStep_fifoInv (s : SimState) (page : Nat)
    (h : FifoInv s.frames s.fifoPointer) :
    FifoInv (fifoStep s page).frames (fifoStep s page).fifoPointer := by
  by_cases hmem : some page ∈ s.frames
  · simpa [fifoStep, hmem] using h
  · simp only [fifoStep, hmem, if_false]
    by_cases hnone : none ∈ s.frames
    · obtain ⟨hptr, hpre, hsuf⟩ := h hnone
      rw [jsSet_coe]
      intro hnone2
      obtain ⟨k, hk_lt, hk_getD⟩ := (mem_iff_getD _ _).mp hnone2
      rw [List.length_set] at hk_lt
      have hk_ne : k ≠ s.fifoPointer := by
        intro hke
        rw [hke, getD_set_self s.frames s.fifoPointer hptr] at hk_getD
        exact Option.noConfusion hk_getD
      have hk_gt : s.fifoPointer < k := by
        rcases Nat.lt_or_ge k s.fifoPointer with hlt | hge
        · rw [getD_set_ne s.frames k s.fifoPointer (Ne.symm hk_ne)] at hk_getD
          exact absurd hk_getD (hpre k hlt)
        · omega
      have hlen : (s.frames.set s.fifoPointer (some page)).length =
          s.frames.length := List.length_set _ _ _
      have hlt2 : s.fifoPointer + 1 < s.frames.length := by omega
      rw [hlen, Nat.mod_eq_of_lt hlt2]
      refine ⟨by omega, ?_, ?_⟩
      · intro i hi
        rcases Nat.lt_or_ge i s.fifoPointer with hlt3 | hge3
        · rw [getD_set_ne s.frames i s.fifoPointer (by omega)]
          exact hpre i hlt3
        · have : i = s.fifoPointer := by omega
          rw [this, getD_set_self s.frames s.fifoPointer hptr]
          exact fun hcon => Option.noConfusion hcon
      · intro i hi hi2
        rw [getD_set_ne s.frames i s.fifoPointer (by omega)]
        exact hsuf i (by omega) hi2
    · intro hnone2
      exfalso
      rw [jsSet_coe] at hnone2
      obtain ⟨k, hk_lt, hk_getD⟩ := (mem_iff_getD _ _).mp hnone2
      rw [List.length_set] at hk_lt
      by_cases hke : k = s.fifoPointer
      · rw [hke, getD_set_self s.frames s.fifoPointer (hke ▸ hk_lt)]
          at hk_getD
        exact Option.noConfusion hk_getD
      · rw [getD_set_ne s.frames k s.fifoPointer (Ne.symm hke)] at hk_getD
        exact hnone ((mem_iff_getD _ _).mpr ⟨k, hk_lt, hk_getD⟩)

theorem reach_fifoInv (c : SimulationController) (hc : Reach c)
    (ha : c.algorithm = .fifo) :
    FifoInv c.currentState.frames c.currentState.fifoPointer := by
  refine (reach_histInv
    (fun algo _ _ s => algo = .fifo → FifoInv s.frames s.fifoPointer)
    ?_ ?_ ?_ c hc).1 ha
  · intro algo n refs _ _ _ _
    show FifoInv (List.replicate n none) 0
    intro hnone
    have hn : n ≠ 0 := ((List.mem_replicate).mp hnone).1
    refine ⟨?_, ?_, ?_⟩
    · simpa using Nat.pos_of_ne_zero hn
    · intro i hi; omega
    · intro i _ _
      exact getD_replicate_none n i
  · intro algo n refs s hP halgo
    simpa [markDone] using hP halgo
  · intro algo n refs s hP halgo
    subst halgo
    exact fifoStep_fifoInv s _ (hP rfl)

/-- C6: in every reachable non-finished state whose next reference is not
resident while at least one frame slot is empty, the step (under any of the
three policies) places the faulting page into the lowest-indexed empty slot
and the fault event reports `replaced = null`. -/
theorem C6_lowest_empty_slot (c : SimulationController) (page : Nat)
    (hc : Reach c) (hfin : c.isFinished = false)
    (hlt : c.currentState.pageIndex < c.pageString.length)
    (hpage : c.pageString.getD c.currentState.pageIndex 0 = page)
    (hmiss : some page ∉ c.currentState.frames)
    (hempty : none ∈ c.currentState.frames) :
    ∃ j : Nat, j < c.currentState.frames.length ∧
      c.currentState.frames.getD j none = none ∧
      (∀ k, k < j → c.currentState.frames.getD k none ≠ none) ∧
      (stepForward c).currentState.frames =
        jsSet c.currentState.frames (j : Int) (some page) ∧
      (stepForward c).currentState.lastEvent =
        Ev.FAULT page none (j : Int) := by
  rw [stepForward_normal c hfin hlt]
  show ∃ j : Nat, _ ∧ _ ∧ _ ∧
    (processOne c.algorithm c.pageString c.currentState).frames = _ ∧
    (processOne c.algorithm c.pageString c.currentState).lastEvent = _
  simp only [processOne, hpage]
  cases halgo : c.algorithm with
  | fifo =>
    obtain ⟨hptr, hpre, hsuf⟩ := reach_fifoInv c hc halgo hempty
    have hget : jsGet c.currentState.frames
        ((c.currentState.fifoPointer : Nat) : Int) = none := by
      simp only [jsGet, Int.toNat_natCast, Int.natCast_nonneg, if_pos]
      exact hsuf _ (Nat.le_refl _) hptr
    refine ⟨c.currentState.fifoPointer, hptr,
      hsuf _ (Nat.le_refl _) hptr, hpre, ?_, ?_⟩
    · simp [fifoStep, hmiss]
    · simp [fifoStep, hmiss, hget]
  | lru =>
    obtain ⟨j, hj_eq, hj_lt, hj_getD, hj_min⟩ :=
      jsIndexOf_frames_spec c.currentState.frames none hempty
    refine ⟨j, hj_lt, hj_getD, fun k hk => hj_min k hk, ?_, ?_⟩
    · simp [lruStep, hmiss, hempty, hj_eq]
    · simp [lruStep, hmiss, hempty, hj_eq]
  | optimal =>
    obtain ⟨j, hj_eq, hj_lt, hj_getD, hj_min⟩ :=
      jsIndexOf_frames_spec c.currentState.frames none hempty
    refine ⟨j, hj_lt, hj_getD, fun k hk => hj_min k hk, ?_, ?_⟩
    · simp [optimalStep, hmiss, hempty, hj_eq]
    · simp [optimalStep, hmiss, hempty, hj_eq]

theorem C6_witness :
    ∃ j : Nat,
      j < (stepForward (mkController .lru 2 [1, 2])).currentState.frames.length ∧
      (stepForward (mkController .lru 2 [1, 2])).currentState.frames.getD j
        none = none ∧
      (∀ k, k < j →
        (stepForward
          (mkController .lru 2 [1, 2])).currentState.frames.getD k none ≠
          none) ∧
      (stepForward (stepForward (mkController .lru 2 [1, 2]))).currentState.frames =
        jsSet (stepForward (mkController .lru 2 [1, 2])).currentState.frames
          (j : Int) (some 2) ∧
      (stepForward (stepForward (mkController .lru 2 [1, 2]))).currentState.lastEvent =
        Ev.FAULT 2 none (j : Int) :=
  C6_lowest_empty_slot (stepForward (mkController .lru 2 [1, 2])) 2
    (Reach.fwd (Reach.init .lru 2 [1, 2] (by decide) (by decide)
      (by decide)))
    (by decide) (by decide) (by decide) (by decide) (by decide)

theorem jsSet_length {α : Type} (l : List α) (i : Int) (x : α) :
    (jsSet l i x).length = l.length := by
  unfold jsSet; split
  · exact List.length_set l _ x
  · rfl

/-- No page occupies two different slots. -/
def FramesInj (l : List (Option Nat)) : Prop :=
  ∀ i j : Nat, i < l.length → j < l.length →
    ∀ p : Nat, l.getD i none = some p → l.getD j none = some p → i = j

/-- The LRU invariant on a simulation state: the recency queue has no
duplicates, its members are exactly the resident pages, and no page is
resident twice. -/
def LruInv (s : SimState) : Prop :=
  s.lruQueue.Nodup ∧ (∀ p : Nat, p ∈ s.lruQueue ↔ some p ∈ s.frames) ∧
  FramesInj s.frames

theorem nodup_queue2 (q : List Nat) (page : Nat) (h : q.Nodup) :
    (q.erase page ++ [page]).Nodup := by
  rw [List.nodup_append]
  refine ⟨h.erase page, List.nodup_singleton page, ?_⟩
  intro a ha hb
  rw [List.mem_singleton] at hb
  subst hb
  exact ((h.mem_erase_iff).mp ha).1 rfl

theorem mem_queue2 (q : List Nat) (page x : Nat) (h : q.Nodup) :
    x ∈ q.erase page ++ [page] ↔ x = page ∨ x ∈ q := by
  rw [List.mem_append, List.mem_singleton, h.mem_erase_iff]
  constructor
  · rintro (⟨_, hx⟩ | rfl)
    · exact Or.inr hx
    · exact Or.inl rfl
  · rintro (rfl | hx)
    · exact Or.inr rfl
    · by_cases hxp : x = page
      · exact Or.inr hxp
      · exact Or.inl ⟨hxp, hx⟩

theorem mem_set_none_iff (l : List (Option Nat)) (j : Nat)
    (hj : j < l.length) (p x : Nat) (hnone : l.getD j none = none) :
    some x ∈ l.set j (some p) ↔ x = p ∨ some x ∈ l := by
  rw [mem_iff_getD]
  constructor
  · rintro ⟨k, hk, hget⟩
    rw [List.length_set] at hk
    by_cases hkj : k = j
    · subst hkj
      rw [getD_set_self l k hk] at hget
      exact Or.inl (Option.some_injective _ hget).symm
    · rw [getD_set_ne l k j (Ne.symm hkj)] at hget
      exact Or.inr ((mem_iff_getD _ _).mpr ⟨k, hk, hget⟩)
  · rintro (rfl | hx)
    · exact ⟨j, by rw [List.length_set]; exact hj, getD_set_self l j hj _⟩
    · obtain ⟨k, hk, hget⟩ := (mem_iff_getD _ _).mp hx
      have hkj : k ≠ j := by
        intro hkj
        rw [hkj, hnone] at hget
        exact Option.noConfusion hget
      exact ⟨k, by rw [List.length_set]; exact hk,
        by rw [getD_set_ne l k j (Ne.symm hkj)]; exact hget⟩

theorem mem_set_victim_iff (l : List (Option Nat)) (j : Nat)
    (hj : j < l.length) (p x v : Nat) (hv : l.getD j none = some v)
    (huniq : ∀ k, k < l.length → l.getD k none = some v → k = j) :
    some x ∈ l.set j (some p) ↔ x = p ∨ (some x ∈ l ∧ x ≠ v) := by
  rw [mem_iff_getD]
  constructor
  · rintro ⟨k, hk, hget⟩
    rw [List.length_set] at hk
    by_cases hkj : k = j
    · subst hkj
      rw [getD_set_self l k hk] at hget
      exact Or.inl (Option.some_injective _ hget).symm
    · rw [getD_set_ne l k j (Ne.symm hkj)] at hget
      refine Or.inr ⟨(mem_iff_getD _ _).mpr ⟨k, hk, hget⟩, ?_⟩
      intro hxv
      subst hxv
      exact hkj (huniq k hk hget)
  · rintro (rfl | ⟨hx, hxv⟩)
    · exact ⟨j, by rw [List.length_set]; exact hj, getD_set_self l j hj _⟩
    · obtain ⟨k, hk, hget⟩ := (mem_iff_getD _ _).mp hx
      have hkj : k ≠ j := by
        intro hkj
        rw [hkj, hv] at hget
        exact hxv (Option.some_injective _ hget.symm)
      exact ⟨k, by rw [List.length_set]; exact hk,
        by rw [getD_set_ne l k j (Ne.symm hkj)]; exact hget⟩

theorem framesInj_set (l : List (Option Nat)) (j : Nat) (hj : j < l.length)
    (p : Nat) (hp : some p ∉ l) (hinj : FramesInj l) :
    FramesInj (l.set j (some p)) := by
  intro i k hi hk q hgi hgk
  rw [List.length_set] at hi hk
  by_cases hij : i = j <;> by_cases hkj : k = j
  · rw [hij, hkj]
  · exfalso
    subst hij
    rw [getD_set_self l i hi] at hgi
    rw [getD_set_ne l k i (Ne.symm hkj)] at hgk
    have : q = p := (Option.some_injective _ hgi).symm
    subst this
    exact hp ((mem_iff_getD _ _).mpr ⟨k, hk, hgk⟩)
  · exfalso
    subst hkj
    rw [getD_set_self l k hk] at hgk
    rw [getD_set_ne l i k (Ne.symm hij)] at hgi
    have : q = p := (Option.some_injective _ hgk).symm
    subst this
    exact hp ((mem_iff_getD _ _).mpr ⟨i, hi, hgi⟩)
  · rw [getD_set_ne l i j (Ne.symm hij)] at hgi
    rw [getD_set_ne l k j (Ne.symm hkj)] at hgk
    exact hinj i k hi hk q hgi hgk

theorem firstResident_some (q : List Nat) (frames : List (Option Nat))
    (v : Nat) (h : firstResident q frames = some v) :
    v ∈ q ∧ some v ∈ frames := by
  induction q with
  | nil => exact Option.noConfusion h
  | cons a rest ih =>
    by_cases ha : some a ∈ frames
    · rw [firstResident, if_pos ha] at h
      have : a = v := Option.some_injective _ h
      subst this
      exact ⟨List.mem_cons_self a rest, ha⟩
    · rw [firstResident, if_neg ha] at h
      obtain ⟨h1, h2⟩ := ih h
      exact ⟨List.mem_cons_of_mem a h1, h2⟩

theorem firstResident_none (q : List Nat) (frames : List (Option Nat))
    (h : firstResident q frames = none) : ∀ x ∈ q, some x ∉ frames := by
  induction q with
  | nil => intro x hx; cases hx
  | cons a rest ih =>
    by_cases ha : some a ∈ frames
    · rw [firstResident, if_pos ha] at h
      exact Option.noConfusion h
    · rw [firstResident, if_neg ha] at h
      intro x hx
      rcases List.mem_cons.mp hx with rfl | hx
      · exact ha
      · exact ih h x hx

theorem lruStep_lruInv (s : SimState) (page : Nat)
    (hlen : 1 ≤ s.frames.length) (h : LruInv s) : LruInv (lruStep s page) := by
  obtain ⟨hnod, hmem, hinj⟩ := h
  by_cases hhit : some page ∈ s.frames
  · simp only [lruStep, if_pos hhit]
    refine ⟨nodup_queue2 _ _ hnod, ?_, hinj⟩
    intro x
    rw [mem_queue2 _ _ _ hnod]
    constructor
    · rintro (rfl | hx)
      · exact hhit
      · exact (hmem x).mp hx
    · intro hx
      exact Or.inr ((hmem x).mpr hx)
  · by_cases hempty : none ∈ s.frames
    · obtain ⟨j, hj_eq, hj_lt, hj_getD, _⟩ :=
        jsIndexOf_frames_spec s.frames none hempty
      simp only [lruStep, if_neg hhit, if_pos hempty, hj_eq, jsSet_coe]
      refine ⟨nodup_queue2 _ _ hnod, ?_,
        framesInj_set s.frames j hj_lt page hhit hinj⟩
      intro x
      rw [mem_queue2 _ _ _ hnod,
        mem_set_none_iff s.frames j hj_lt page x hj_getD]
      constructor
      · rintro (rfl | hx)
        · exact Or.inl rfl
        · exact Or.inr ((hmem x).mp hx)
      · rintro (rfl | hx)
        · exact Or.inl rfl
        · exact Or.inr ((hmem x).mpr hx)
    · have hq0 : ∃ q0 : Nat, s.frames.getD 0 none = some q0 := by
        cases hf : s.frames.getD 0 none with
        | none =>
          exact absurd ((mem_iff_getD _ _).mpr ⟨0, by omega, hf⟩) hempty
        | some q0 => exact ⟨q0, rfl⟩
      obtain ⟨q0, hq0⟩ := hq0
      have hq0mem : some q0 ∈ s.frames :=
        (mem_iff_getD _ _).mpr ⟨0, by omega, hq0⟩
      have hfr : ∃ v, firstResident (s.lruQueue.erase page ++ [page])
          s.frames = some v := by
        cases hfr0 : firstResident (s.lruQueue.erase page ++ [page])
            s.frames with
        | none =>
          exact absurd hq0mem (firstResident_none _ _ hfr0 q0
            ((mem_queue2 _ _ _ hnod).mpr (Or.inr ((hmem q0).mpr hq0mem))))
        | some v => exact ⟨v, rfl⟩
      obtain ⟨v, hv⟩ := hfr
      obtain ⟨hvq2, hvres⟩ := firstResident_some _ _ _ hv
      obtain ⟨j, hj_eq, hj_lt, hj_getD, _⟩ :=
        jsIndexOf_frames_spec s.frames (some v) hvres
      have hvne : page ≠ v := fun he => hhit (he ▸ hvres)
      have huniq : ∀ k, k < s.frames.length →
          s.frames.getD k none = some v → k = j :=
        fun k hk hgk => hinj k j hk hj_lt v hgk hj_getD
      simp only [lruStep, if_neg hhit, if_neg hempty, hv, hj_eq, jsSet_coe]
      refine ⟨(nodup_queue2 _ _ hnod).erase v, ?_,
        framesInj_set s.frames j hj_lt page hhit hinj⟩
      intro x
      rw [(nodup_queue2 _ _ hnod).mem_erase_iff, mem_queue2 _ _ _ hnod,
        mem_set_victim_iff s.frames j hj_lt page x v hj_getD huniq]
      constructor
      · rintro ⟨hxv, (rfl | hx)⟩
        · exact Or.inl rfl
        · exact Or.inr ⟨(hmem x).mp hx, hxv⟩
      · rintro (rfl | ⟨hx, hxv⟩)
        · exact ⟨hvne, Or.inl rfl⟩
        · exact ⟨hxv, Or.inr ((hmem x).mpr hx)⟩

theorem lruStep_frames_length (s : SimState) (page : Nat) :
    (lruStep s page).frames.length = s.frames.length := by
  unfold lruStep; split
  · rfl
  · split
    · exact jsSet_length _ _ _
    · exact jsSet_length _ _ _

theorem reach_lruInv (c : SimulationController) (hc : Reach c)
    (ha : c.algorithm = .lru) :
    1 ≤ c.currentState.frames.length ∧ LruInv c.currentState := by
  refine (reach_histInv
    (fun algo _ _ s => algo = .lru → (1 ≤ s.frames.length ∧ LruInv s))
    ?_ ?_ ?_ c hc).1 ha
  · intro algo n refs h1 _ _ _
    refine ⟨by simpa [initSimState] using h1, List.nodup_nil, ?_, ?_⟩
    · intro p
      constructor
      · intro hp; cases hp
      · intro hp
        exact absurd (List.eq_of_mem_replicate hp) (Option.noConfusion)
    · intro i j _ _ p hgi
      rw [show (initSimState n).frames = List.replicate n none from rfl,
        getD_replicate_none] at hgi
      exact absurd hgi (Option.noConfusion)
  · intro algo n refs s hP halgo
    obtain ⟨h1, h2⟩ := hP halgo
    exact ⟨h1, h2.1, h2.2.1, h2.2.2⟩
  · intro algo n refs s hP halgo
    subst halgo
    obtain ⟨h1, h2⟩ := hP rfl
    refine ⟨?_, ?_⟩
    · show 1 ≤ (lruStep s _).frames.length
      rw [lruStep_frames_length]
      exact h1
    · exact lruStep_lruInv s _ h1 h2

/-- C8: in every reachable state of an LRU simulation the recency queue
has no duplicate entries and contains exactly the pages currently resident
in the frames. -/
theorem C8_lru_queue_permutation (c : SimulationController) (hc : Reach c)
    (ha : c.algorithm = .lru) :
    c.currentState.lruQueue.Nodup ∧
    ∀ p : Nat, p ∈ c.currentState.lruQueue ↔
      some p ∈ c.currentState.frames := by
  obtain ⟨_, h1, h2, _⟩ := reach_lruInv c hc ha
  exact ⟨h1, h2⟩

theorem C8_witness :
    (stepForward (stepForward
      (mkController .lru 2 [1, 2, 1]))).currentState.lruQueue.Nodup ∧
    ∀ p : Nat,
      p ∈ (stepForward (stepForward
        (mkController .lru 2 [1, 2, 1]))).currentState.lruQueue ↔
      some p ∈ (stepForward (stepForward
        (mkController .lru 2 [1, 2, 1]))).currentState.frames :=
  C8_lru_queue_permutation _
    (Reach.fwd (Reach.fwd (Reach.init .lru 2 [1, 2, 1] (by decide)
      (by decide) (by decide))))
    (by decide)

theorem getD_mem (l : List (Option Nat)) (k : Nat) (hk : k < l.length) :
    l.getD k none ∈ l :=
  (mem_iff_getD l _).mpr ⟨k, hk, rfl⟩

theorem optFutureIdx_ge (future : List Nat) (f : Option Nat) :
    -1 ≤ optFutureIdx future f := by
  cases f with
  | none => exact le_refl _
  | some p =>
    rcases jsIndexOf_neg_one_or_nonneg future p with h | h
    · rw [optFutureIdx, h]
    · rw [optFutureIdx]; omega

/-- The victim-search loop when some scanned slot holds a page with no
future use: it stops at the first such slot (`break`) and returns it, no
matter what the accumulators hold. -/
theorem optScan_break (future : List Nat) :
    ∀ (fs : List (Option Nat)) (i : Nat) (mF vI : Int) (vP : Option Nat),
      (∃ f ∈ fs, optFutureIdx future f = -1) →
      ∃ j : Nat, j < fs.length ∧
        optFutureIdx future (fs.getD j none) = -1 ∧
        (∀ k, k < j → optFutureIdx future (fs.getD k none) ≠ -1) ∧
        optScan future fs i mF vI vP = (((i + j : Nat) : Int),
          fs.getD j none) := by
  intro fs
  induction fs with
  | nil =>
    rintro i mF vI vP ⟨f, hf, _⟩
    cases hf
  | cons f rest ih =>
    rintro i mF vI vP ⟨g, hg, hgF⟩
    by_cases hf : optFutureIdx future f = -1
    · refine ⟨0, by simp, by simpa using hf,
        fun k hk => absurd hk (Nat.not_lt_zero k), ?_⟩
      simp [optScan, hf]
    · have hg2 : g ∈ rest := by
        rcases List.mem_cons.mp hg with rfl | h
        · exact absurd hgF hf
        · exact h
      by_cases hcmp : mF < optFutureIdx future f
      · obtain ⟨j, hj1, hj2, hj3, hj4⟩ :=
          ih (i + 1) (optFutureIdx future f) (i : Int) f ⟨g, hg2, hgF⟩
        refine ⟨j + 1, by simpa using Nat.succ_lt_succ hj1,
          by simpa [List.getD_cons_succ] using hj2, ?_, ?_⟩
        · intro k hk
          cases k with
          | zero => simpa using hf
          | succ k =>
            rw [List.getD_cons_succ]
            exact hj3 k (by omega)
        · rw [show optScan future (f :: rest) i mF vI vP =
              optScan future rest (i + 1) (optFutureIdx future f)
                (i : Int) f from by
            simp [optScan, hf, hcmp]]
          rw [hj4, List.getD_cons_succ]
          have : i + 1 + j = i + (j + 1) := by omega
          rw [this]
      · obtain ⟨j, hj1, hj2, hj3, hj4⟩ :=
          ih (i + 1) mF vI vP ⟨g, hg2, hgF⟩
        refine ⟨j + 1, by simpa using Nat.succ_lt_succ hj1,
          by simpa [List.getD_cons_succ] using hj2, ?_, ?_⟩
        · intro k hk
          cases k with
          | zero => simpa using hf
          | succ k =>
            rw [List.getD_cons_succ]
            exact hj3 k (by omega)
        · rw [show optScan future (f :: rest) i mF vI vP =
              optScan future rest (i + 1) mF vI vP from by
            simp [optScan, hf, hcmp]]
          rw [hj4, List.getD_cons_succ]
          have : i + 1 + j = i + (j + 1) := by omega
          rw [this]

/-- The victim-search loop when every scanned slot recurs in the future:
either nothing beats the incoming accumulator, or the result is the first
slot attaining the maximal next-use distance (later equal distances do not
displace it because the comparison is strict). -/
theorem optScan_noBreak (future : List Nat) :
    ∀ (fs : List (Option Nat)) (i : Nat) (mF vI : Int) (vP : Option Nat),
      (∀ f ∈ fs, optFutureIdx future f ≠ -1) →
      (optScan future fs i mF vI vP = (vI, vP) ∧
        ∀ f ∈ fs, optFutureIdx future f ≤ mF) ∨
      (∃ j : Nat, j < fs.length ∧
        optScan future fs i mF vI vP = (((i + j : Nat) : Int),
          fs.getD j none) ∧
        mF < optFutureIdx future (fs.getD j none) ∧
        (∀ k, k < fs.length →
          optFutureIdx future (fs.getD k none) ≤
            optFutureIdx future (fs.getD j none)) ∧
        (∀ k, k < j →
          optFutureIdx future (fs.getD k none) <
            optFutureIdx future (fs.getD j none) ∨
          optFutureIdx future (fs.getD k none) ≤ mF)) := by
  intro fs
  induction fs with
  | nil =>
    intro i mF vI vP _
    left
    exact ⟨rfl, fun f hf => absurd hf (List.not_mem_nil f)⟩
  | cons f rest ih =>
    intro i mF vI vP hnb
    have hf : optFutureIdx future f ≠ -1 :=
      hnb f (List.mem_cons_self f rest)
    have hnb2 : ∀ g ∈ rest, optFutureIdx future g ≠ -1 :=
      fun g hg => hnb g (List.mem_cons_of_mem f hg)
    by_cases hcmp : mF < optFutureIdx future f
    · have heq : optScan future (f :: rest) i mF vI vP =
          optScan future rest (i + 1) (optFutureIdx future f) (i : Int)
            f := by
        simp [optScan, hf, hcmp]
      rcases ih (i + 1) (optFutureIdx future f) (i : Int) f hnb2 with
        ⟨hres, hall⟩ | ⟨j, hj1, hj2, hj3, hj4, hj5⟩
      · right
        refine ⟨0, by simp, ?_, by simpa using hcmp, ?_,
          fun k hk => absurd hk (Nat.not_lt_zero k)⟩
        · rw [heq, hres]; simp
        · intro k hk
          cases k with
          | zero => simp
          | succ k =>
            rw [List.getD_cons_succ, List.getD_cons_zero]
            exact hall (rest.getD k none) (getD_mem rest k (by simpa using hk))
      · right
        refine ⟨j + 1, by simpa using Nat.succ_lt_succ hj1, ?_, ?_, ?_, ?_⟩
        · rw [heq, hj2, List.getD_cons_succ]
          have : i + 1 + j = i + (j + 1) := by omega
          rw [this]
        · rw [List.getD_cons_succ]
          exact lt_trans hcmp hj3
        · intro k hk
          cases k with
          | zero =>
            rw [List.getD_cons_zero, List.getD_cons_succ]
            exact le_of_lt hj3
          | succ k =>
            rw [List.getD_cons_succ, List.getD_cons_succ]
            exact hj4 k (by simpa using hk)
        · intro k hk
          cases k with
          | zero =>
            rw [List.getD_cons_zero, List.getD_cons_succ]
            exact Or.inl hj3
          | succ k =>
            rw [List.getD_cons_succ, List.getD_cons_succ]
            rcases hj5 k (by omega) with h | h
            · exact Or.inl h
            · exact Or.inl (lt_of_le_of_lt h hj3)
    · have heq : optScan future (f :: rest) i mF vI vP =
          optScan future rest (i + 1) mF vI vP := by
        simp [optScan, hf, hcmp]
      rcases ih (i + 1) mF vI vP hnb2 with
        ⟨hres, hall⟩ | ⟨j, hj1, hj2, hj3, hj4, hj5⟩
      · left
        refine ⟨by rw [heq, hres], ?_⟩
        intro g hg
        rcases List.mem_cons.mp hg with rfl | hg
        · exact not_lt.mp hcmp
        · exact hall g hg
      · right
        refine ⟨j + 1, by simpa using Nat.succ_lt_succ hj1, ?_, ?_, ?_, ?_⟩
        · rw [heq, hj2, List.getD_cons_succ]
          have : i + 1 + j = i + (j + 1) := by omega
          rw [this]
        · rw [List.getD_cons_succ]
          exact hj3
        · intro k hk
          cases k with
          | zero =>
            rw [List.getD_cons_zero, List.getD_cons_succ]
            exact le_of_lt (lt_of_le_of_lt (not_lt.mp hcmp) hj3)
          | succ k =>
            rw [List.getD_cons_succ, List.getD_cons_succ]
            exact hj4 k (by simpa using hk)
        · intro k hk
          cases k with
          | zero =>
            rw [List.getD_cons_zero]
            exact Or.inr (not_lt.mp hcmp)
          | succ k =>
            rw [List.getD_cons_succ, List.getD_cons_succ]
            rcases hj5 k (by omega) with h | h
            · exact Or.inl h
            · exact Or.inr h

/-- C7: on an Optimal fault with all frames occupied, the victim slot is
the first slot holding a page with no future use when such a page exists
(so a never-recurring resident always beats every recurring one, ties
among never-recurring pages going to the lowest slot index); otherwise it
is the first slot whose page has the strictly largest next-occurrence
index (the first-scanned slot winning ties). -/
theorem C7_optimal_victim (s : SimState) (page : Nat) (future : List Nat)
    (hfull : none ∉ s.frames) (hmiss : some page ∉ s.frames)
    (hne : s.frames ≠ []) :
    ∃ (i : Nat) (v : Nat),
      i < s.frames.length ∧ s.frames.getD i none = some v ∧
      (optimalStep s page future).lastEvent =
        Ev.FAULT page (some v) (i : Int) ∧
      (optimalStep s page future).frames = s.frames.set i (some page) ∧
      ((v ∉ future ∧
        ∀ k, k < i → ∀ q : Nat, s.frames.getD k none = some q →
          q ∈ future) ∨
       ((∀ k, k < s.frames.length → ∀ q : Nat,
           s.frames.getD k none = some q → q ∈ future) ∧
        (∀ k, k < s.frames.length → ∀ q : Nat,
           s.frames.getD k none = some q →
           jsIndexOf future q ≤ jsIndexOf future v) ∧
        (∀ k, k < i → ∀ q : Nat, s.frames.getD k none = some q →
           jsIndexOf future q < jsIndexOf future v))) := by
  have hstep : optimalStep s page future =
      { s with
        stats := { s.stats with pageFaults := s.stats.pageFaults + 1 }
        frames := jsSet s.frames
          (optScan future s.frames 0 (-1) (-1) none).1 (some page)
        lastEvent := .FAULT page
          (optScan future s.frames 0 (-1) (-1) none).2
          (optScan future s.frames 0 (-1) (-1) none).1 } := by
    simp [optimalStep, hmiss, hfull]
  by_cases hbreak : ∃ f ∈ s.frames, optFutureIdx future f = -1
  · obtain ⟨j, hj1, hj2, hj3, hj4⟩ :=
      optScan_break future s.frames 0 (-1) (-1) none hbreak
    rw [Nat.zero_add] at hj4
    cases hgj : s.frames.getD j none with
    | none => exact absurd (hgj ▸ getD_mem s.frames j hj1) hfull
    | some v =>
      rw [hgj] at hj4 hj2
      refine ⟨j, v, hj1, hgj, ?_, ?_, Or.inl ⟨?_, ?_⟩⟩
      · rw [hstep]; simp [hj4]
      · rw [hstep]; simp [hj4, jsSet_coe]
      · simp only [optFutureIdx] at hj2
        exact (jsIndexOf_eq_neg_one_iff future v).mp hj2
      · intro k hk q hq
        have := hj3 k hk
        rw [hq] at this
        simp only [optFutureIdx] at this
        by_contra hcon
        exact this ((jsIndexOf_eq_neg_one_iff future q).mpr hcon)
  · have hnb : ∀ f ∈ s.frames, optFutureIdx future f ≠ -1 := by
      push_neg at hbreak
      exact hbreak
    rcases optScan_noBreak future s.frames 0 (-1) (-1) none hnb with
      ⟨_, hall⟩ | ⟨j, hj1, hj2, hj3, hj4, hj5⟩
    · exfalso
      cases hfr : s.frames with
      | nil => exact hne hfr
      | cons f rest =>
        rw [hfr] at hall hnb
        have h1 := hall f (List.mem_cons_self f rest)
        have h2 := optFutureIdx_ge future f
        exact hnb f (List.mem_cons_self f rest) (le_antisymm h1 h2)
    · rw [Nat.zero_add] at hj2
      cases hgj : s.frames.getD j none with
      | none => exact absurd (hgj ▸ getD_mem s.frames j hj1) hfull
      | some v =>
        rw [hgj] at hj2 hj3 hj4 hj5
        refine ⟨j, v, hj1, hgj, ?_, ?_, Or.inr ⟨?_, ?_, ?_⟩⟩
        · rw [hstep]; simp [hj2]
        · rw [hstep]; simp [hj2, jsSet_coe]
        · intro k hk q hq
          have := hnb (s.frames.getD k none) (getD_mem s.frames k hk)
          rw [hq] at this
          simp only [optFutureIdx] at this
          by_contra hcon
          exact this ((jsIndexOf_eq_neg_one_iff future q).mpr hcon)
        · intro k hk q hq
          have := hj4 k hk
          rw [hq] at this
          simpa only [optFutureIdx] using this
        · intro k hk q hq
          rcases hj5 k hk with h | h
          · rw [hq] at h
            simpa only [optFutureIdx] using h
          · exfalso
            have hge := optFutureIdx_ge future (s.frames.getD k none)
            have := hnb (s.frames.getD k none)
              (getD_mem s.frames k (by omega))
            exact this (le_antisymm h hge)

theorem C7_witness :
    ∃ (i : Nat) (v : Nat),
      i < (2 : Nat) ∧
      [some 1, some 2].getD i none = some v ∧
      (optimalStep
        { frames := [some 1, some 2], pageIndex := 0
          stats := { pageFaults := 0, pageHits := 0 }, fifoPointer := 0
          lruQueue := [], lastEvent := .START } 3 [2]).lastEvent =
        Ev.FAULT 3 (some v) (i : Int) ∧
      (optimalStep
        { frames := [some 1, some 2], pageIndex := 0
          stats := { pageFaults := 0, pageHits := 0 }, fifoPointer := 0
          lruQueue := [], lastEvent := .START } 3 [2]).frames =
        [some 1, some 2].set i (some 3) ∧
      ((v ∉ [2] ∧
        ∀ k, k < i → ∀ q : Nat, [some 1, some 2].getD k none = some q →
          q ∈ [2]) ∨
       ((∀ k, k < (2 : Nat) → ∀ q : Nat,
           [some 1, some 2].getD k none = some q → q ∈ [2]) ∧
        (∀ k, k < (2 : Nat) → ∀ q : Nat,
           [some 1, some 2].getD k none = some q →
           jsIndexOf [2] q ≤ jsIndexOf [2] v) ∧
        (∀ k, k < i → ∀ q : Nat, [some 1, some 2].getD k none = some q →
           jsIndexOf [2] q < jsIndexOf [2] v))) :=
  C7_optimal_victim
    { frames := [some 1, some 2], pageIndex := 0
      stats := { pageFaults := 0, pageHits := 0 }, fifoPointer := 0
      lruQueue := [], lastEvent := .START } 3 [2]
    (by decide) (by decide) (by decide)
